import Mathlib

/-!
Verification of the ShoruiCheckerAI frontend analysis core against its spec.

The development shallowly embeds the JavaScript analysis-state logic:

* `parseIndividualResults` — the exported parser in `src/utils/analysis.js`,
  which splits a backend response on the regex `(?:^|\n)## 📄 ` (the `^`
  alternative matches only at index 0 of the input, so the split points are
  a marker at the very start of the string plus every occurrence of the
  literal `"\n## 📄 "`).
* `parseIndividualResultsMain` — the older inline parser in `src/main.js`,
  which splits on the regex `\n## 📄 ` only.
* `updateButtonsState` — the pure UI-state deriver in `src/utils/ui.js`.
* `FileRecord` and the result appliers `applyCompareResult`,
  `applyIndividualResults`, `applyErrorResult` from the main frontend module,
  where `pdfFiles.find(pf => pf.path === f.path)` is modelled by `updateFirst`
  (mutate the first list entry whose `path` matches).
* `addRecord` — the guarded insertion used by the pdf-detected listener,
  drag-drop handler, file-open dialog and history loader
  (`if (!pdfFiles.find(f => f.path === path)) pdfFiles.push(...)`).
* `applyProgress` / `runAnalyze` — the `analysis-progress` listener
  (`file.analyzing = !event.payload.completed` on the first record whose
  `name` matches) followed by the result application of one `analyze` run.

JavaScript strings are modelled as `String` with character-list based
helpers (`jsSplit`, `jsTrim`, ...) so that every definition is executable
and kernel-reducible.  JavaScript objects used as string-keyed maps are
modelled as association lists with last-write-wins lookup (`jsLookup`).
-/

/-- Whitespace for the purposes of `String.prototype.trim`
(ASCII whitespace plus NBSP and BOM; exotic Unicode space separators
are not modelled). -/
def isSpaceChar (c : Char) : Bool :=
  c = ' ' || c = '\t' || c = '\n' || c = '\r' ||
  c = '\x0b' || c = '\x0c' || c = ' ' || c = '﻿'

/-- `String.prototype.trim`: drop whitespace from both ends. -/
def jsTrim (s : String) : String :=
  ⟨((s.data.dropWhile isSpaceChar).reverse.dropWhile isSpaceChar).reverse⟩

/-- Fuel-indexed worker for `jsSplit`: scan the character list left to
right; whenever the separator is a prefix of the remaining input, emit the
accumulated segment and continue after the separator (leftmost,
non-overlapping matches, exactly as `String.prototype.split` with a
separator that matches a fixed literal).  The fuel is an upper bound on the
number of characters still to be scanned, so it never runs out when
initialised with the input length. -/
def jsSplitGo (sep : List Char) : Nat → List Char → List Char → List (List Char)
  | 0, rest, acc => [acc.reverse ++ rest]
  | _ + 1, [], acc => [acc.reverse]
  | fuel + 1, c :: cs, acc =>
    if sep ≠ [] ∧ sep.isPrefixOf (c :: cs) then
      acc.reverse :: jsSplitGo sep fuel ((c :: cs).drop sep.length) []
    else
      jsSplitGo sep fuel cs (c :: acc)

/-- `s.split(sep)` for a non-empty literal separator. -/
def jsSplit (sep : String) (s : String) : List String :=
  (jsSplitGo sep.data s.data.length s.data []).map fun l => ⟨l⟩

/-- `pre` is a prefix of `s` (used to model the `^`-anchored regex
alternative and `^`-anchored `String.prototype.replace`). -/
def jsStartsWith (pre s : String) : Bool :=
  pre.data.isPrefixOf s.data

/-- `lines.join("\n")`. -/
def joinNL (ls : List String) : String :=
  ⟨List.intercalate [Char.ofNat 10] (ls.map fun s => s.data)⟩

/-- `.replace(/^---\n/, "")`: strip one leading `"---\n"` if present. -/
def stripDashesNL (s : String) : String :=
  if jsStartsWith "---\n" s then ⟨s.data.drop 4⟩ else s

/-- The individual-mode section marker `"## 📄 "` (load-bearing wire
format literal). -/
def sectionMarker : String := "## 📄 "

/-- The separator the parsers split on when not at the start of the
string: a newline followed by the marker. -/
def sectionSep : String := "\n## 📄 "

/-- Loop body shared verbatim by both parsers
(`for (const section of sections) { ... }`): skip sections that are blank
after trimming, take the first line as the file name (trimmed), strip one
leading `"---"` line from the rest, trim it, and record the
`fileName ↦ content` binding when the name is non-empty.  Bindings are
appended in iteration order; `jsLookup` below reads them with
JavaScript-object overwrite semantics (last binding wins). -/
def processSection (acc : List (String × String)) (sec : String) :
    List (String × String) :=
  if jsTrim sec = "" then acc
  else
    let lines := jsSplit "\n" sec
    let fileName := jsTrim (lines.headD "")
    let content := jsTrim (stripDashesNL (joinNL (lines.drop 1)))
    if fileName = "" then acc else acc ++ [(fileName, content)]

/-- The exported parser in `src/utils/analysis.js`:
`result.split(/(?:^|\n)## 📄 /)` followed by the section loop.  The `^`
alternative of the regex matches only at index 0, so when the input starts
with the marker the split yields an empty preamble followed by the split
of the remainder on the literal `"\n## 📄 "`; otherwise it is exactly the
split on that literal. -/
def parseIndividualResults (result : String) : List (String × String) :=
  let sections :=
    if jsStartsWith sectionMarker result then
      "" :: jsSplit sectionSep ⟨result.data.drop sectionMarker.data.length⟩
    else
      jsSplit sectionSep result
  sections.foldl processSection []

/-- The older inline parser in `src/main.js`:
`result.split(/\n## 📄 /)` followed by the identical section loop. -/
def parseIndividualResultsMain (result : String) : List (String × String) :=
  (jsSplit sectionSep result).foldl processSection []

/-- Read a JavaScript-object-as-map built by successive assignments:
the last binding for a key wins; absent keys read as `undefined`
(`none`). -/
def jsLookup (m : List (String × String)) (k : String) : Option String :=
  (m.reverse.find? fun p => p.1 == k).map fun p => p.2

/-- One tracked file entry of the frontend store (`pdfFiles`).  Fields that
are absent until first assignment in JavaScript (`result`, `analyzedAt`,
`documentType`) are `Option`s; boolean fields that are absent-hence-falsy
until first assignment (`resultError`, `embedded`, `analyzing`,
`compareMode`) are `Bool`s. -/
structure FileRecord where
  name : String
  path : String
  checked : Bool
  result : Option String
  resultError : Bool
  analyzedAt : Option String
  documentType : Option String
  embedded : Bool
  analyzing : Bool
  compareMode : Bool
deriving DecidableEq, Repr

/-- `list.find(p)` followed by mutating the found element: update the
first entry satisfying `p`, leave everything else untouched. -/
def updateFirst {α : Type} (p : α → Bool) (g : α → α) : List α → List α
  | [] => []
  | r :: rs => if p r then g r :: rs else r :: updateFirst p g rs

/-- The per-record mutation of `applyCompareResult`. -/
def compareUpd (result timestamp : String) (r : FileRecord) : FileRecord :=
  { r with
    result := some result
    resultError := false
    compareMode := true
    analyzedAt := some timestamp
    documentType := some "照合解析" }

/-- `applyCompareResult(checkedFiles, result, timestamp)`: for each checked
file, find the store record with the same `path` and overwrite it with the
shared compare result. -/
def applyCompareResult (checkedFiles : List FileRecord)
    (result timestamp : String) (files : List FileRecord) : List FileRecord :=
  checkedFiles.foldl
    (fun fs c => updateFirst (fun pf => pf.path == c.path)
      (compareUpd result timestamp) fs) files

/-- The per-record mutation of `applyIndividualResults`: look the record's
display name up in the parsed mapping and overwrite the result fields only
when the entry exists and is truthy (a non-empty string). -/
def individualUpd (m : List (String × String)) (timestamp : String)
    (r : FileRecord) : FileRecord :=
  match jsLookup m r.name with
  | none => r
  | some c =>
    if c = "" then r
    else
      { r with
        result := some c
        resultError := false
        analyzedAt := some timestamp
        embedded := true }

/-- `applyIndividualResults(checkedFiles, result, timestamp)`: parse the
response, then for each checked file find the store record with the same
`path` and conditionally overwrite it from the mapping. -/
def applyIndividualResults (checkedFiles : List FileRecord)
    (result timestamp : String) (files : List FileRecord) : List FileRecord :=
  let fileResults := parseIndividualResults result
  checkedFiles.foldl
    (fun fs c => updateFirst (fun pf => pf.path == c.path)
      (individualUpd fileResults timestamp) fs) files

/-- The per-record mutation of `applyErrorResult`. -/
def errorUpd (error : String) (r : FileRecord) : FileRecord :=
  { r with result := some error, resultError := true }

/-- `applyErrorResult(checkedFiles, error)`: for each checked file, find
the store record with the same `path` and mark it errored.  No other field
(in particular `analyzedAt`) is written. -/
def applyErrorResult (checkedFiles : List FileRecord) (error : String)
    (files : List FileRecord) : List FileRecord :=
  checkedFiles.foldl
    (fun fs c => updateFirst (fun pf => pf.path == c.path)
      (errorUpd error) fs) files

/-- Guarded insertion shared by the pdf-detected listener, the drag-drop
handler, the file-open dialog and the history loader:
`if (!pdfFiles.find(f => f.path === path)) pdfFiles.push(record)`. -/
def addRecord (files : List FileRecord) (r : FileRecord) : List FileRecord :=
  if (files.find? fun f => f.path == r.path).isSome then files
  else files ++ [r]

/-- Input flags of `updateButtonsState` (`src/utils/ui.js`). -/
structure ButtonFlags where
  hasFiles : Bool
  hasChecked : Bool
  hasResultsSelected : Bool
  busy : Bool
  hasCustomInstruction : Bool
deriving DecidableEq, Repr

/-- Output decisions of `updateButtonsState`. -/
structure ButtonsState where
  analyzeDisabled : Bool
  compareDisabled : Bool
  clearDisabled : Bool
  selectAllDisabled : Bool
  selectNoneDisabled : Bool
  guidelinesDisabled : Bool
  customInstructionDisabled : Bool
  copyInstructionDisabled : Bool
deriving DecidableEq, Repr

/-- The UI-state deriver `updateButtonsState` from `src/utils/ui.js`,
transcribed field for field. -/
def updateButtonsState (f : ButtonFlags) : ButtonsState where
  analyzeDisabled := f.busy || !f.hasChecked
  compareDisabled := f.busy || !f.hasChecked || f.hasResultsSelected
  clearDisabled := f.busy || !f.hasFiles
  selectAllDisabled := !f.hasFiles
  selectNoneDisabled := !f.hasFiles
  guidelinesDisabled := f.busy || !f.hasResultsSelected
  customInstructionDisabled := f.busy || !f.hasChecked
  copyInstructionDisabled :=
    f.busy || !f.hasResultsSelected || !f.hasCustomInstruction

/-- One event on the `analysis-progress` channel. -/
structure ProgressEvent where
  file_name : String
  completed : Bool
  success : Bool
deriving DecidableEq, Repr

/-- The `analysis-progress` listener body:
`pdfFiles.find(f => f.name === event.payload.file_name)` and, when found,
`file.analyzing = !event.payload.completed`. -/
def applyProgress (files : List FileRecord) (e : ProgressEvent) :
    List FileRecord :=
  updateFirst (fun f => f.name == e.file_name)
    (fun f => { f with analyzing := !e.completed }) files

/-- One `analyze(mode)` run, abstracted over the interleaving: the checked
set is captured at entry (`getCheckedFiles()`), the progress events
received during the run each mutate only `analyzing`, and at the end the
response (or the error) is applied to the store.  The `finally` block of
`analyze` only re-derives button state and tears down the listeners; it
does not write any record field, so it contributes nothing here. -/
def runAnalyze (files : List FileRecord) (events : List ProgressEvent)
    (outcome : Except String String) (mode : String) (timestamp : String) :
    List FileRecord :=
  let checkedFiles := files.filter fun f => f.checked
  let progressed := events.foldl applyProgress files
  match outcome with
  | Except.error e => applyErrorResult checkedFiles e progressed
  | Except.ok result =>
    if mode = "compare" then
      applyCompareResult checkedFiles result timestamp progressed
    else
      applyIndividualResults checkedFiles result timestamp progressed

/-! ## Helper lemmas -/

/-- Mapping a function that fixes every member of a list is the
identity. -/
lemma map_eq_self_of_eq {α : Type} (f : α → α) :
    ∀ (l : List α), (∀ a ∈ l, f a = a) → l.map f = l := by
  intro l
  induction l with
  | nil => intro _; rfl
  | cons a l ih =>
    intro h
    simp only [List.map_cons]
    rw [h a (by simp), ih (fun b hb => h b (by simp [hb]))]

/-- The last element of a list is a member. -/
lemma mem_of_getLast?_eq {α : Type} :
    ∀ {l : List α} {a : α}, l.getLast? = some a → a ∈ l := by
  intro l
  induction l with
  | nil => intro a h; cases h
  | cons b l ih =>
    intro a h
    cases l with
    | nil =>
      simp only [List.getLast?_singleton, Option.some.injEq] at h
      simp [h]
    | cons c l2 =>
      rw [List.getLast?_cons_cons] at h
      exact List.mem_cons_of_mem b (ih h)

/-- Dropping the head of a cons does not change `getLast?` when the tail
is non-empty. -/
lemma getLast?_cons_of_ne_nil {α : Type} {a : α} {l : List α} (h : l ≠ []) :
    (a :: l).getLast? = l.getLast? := by
  cases l with
  | nil => exact absurd rfl h
  | cons b l2 => exact List.getLast?_cons_cons

/-- A key successfully looked up in an association map is one of its
keys. -/
lemma jsLookup_mem_keys {m : List (String × String)} {k c : String}
    (h : jsLookup m k = some c) : k ∈ m.map Prod.fst := by
  unfold jsLookup at h
  cases hf : m.reverse.find? fun p => p.1 == k with
  | none => rw [hf] at h; cases h
  | some p =>
    have hp : p ∈ m.reverse := List.mem_of_find?_eq_some hf
    have hk : p.1 = k := by
      have := List.find?_some hf
      simpa [beq_iff_eq] using this
    rw [List.mem_reverse] at hp
    exact hk ▸ List.mem_map_of_mem Prod.fst hp

/-- `updateFirst` on a matching predicate of the form `key · == q`, over a
list whose keys are pairwise distinct and a key-preserving update, equals a
pointwise conditional map: the first match is the only match. -/
lemma updateFirst_eq_map {g : FileRecord → FileRecord} (key : FileRecord → String) :
    ∀ (l : List FileRecord), ((l.map key).Nodup) → ∀ q : String,
      updateFirst (fun r => key r == q) g l
        = l.map (fun r => if key r == q then g r else r) := by
  intro l
  induction l with
  | nil => intro _ _; rfl
  | cons r rs ih =>
    intro hnd q
    simp only [List.map_cons, List.nodup_cons] at hnd
    by_cases hq : key r = q
    · have hbeq : (key r == q) = true := by simp [hq]
      simp only [updateFirst, hbeq, if_true, List.map_cons]
      have htail : rs.map (fun r2 => if (key r2 == q) = true then g r2 else r2) = rs := by
        apply map_eq_self_of_eq
        intro a ha
        have hne : key a ≠ q := by
          intro he
          have : key a ∈ rs.map key := List.mem_map_of_mem key ha
          rw [he, ← hq] at this
          exact hnd.1 this
        simp [hne]
      rw [htail]
    · have hbeq : (key r == q) = false := by simp [hq]
      simp only [updateFirst, hbeq, Bool.false_eq_true, if_false, List.map_cons]
      rw [ih hnd.2 q]

/-- Folding `updateFirst` over a list of seeds with pairwise-distinct keys,
against a store with pairwise-distinct keys, updates exactly the records
whose key occurs among the seeds. -/
lemma foldl_updateFirst_eq_map {g : FileRecord → FileRecord} (key : FileRecord → String)
    (hg : ∀ r, key (g r) = key r) :
    ∀ (checked files : List FileRecord), ((files.map key).Nodup) →
      ((checked.map key).Nodup) →
      checked.foldl (fun fs c => updateFirst (fun r => key r == key c) g fs) files
        = files.map (fun r => if checked.any (fun c => key r == key c) then g r else r) := by
  intro checked
  induction checked with
  | nil =>
    intro files _ _
    simp only [List.foldl_nil, List.any_nil, Bool.false_eq_true, if_false]
    exact (map_eq_self_of_eq _ files (fun a _ => rfl)).symm
  | cons c cs ih =>
    intro files hndF hndC
    simp only [List.map_cons, List.nodup_cons] at hndC
    simp only [List.foldl_cons]
    rw [updateFirst_eq_map key files hndF (key c)]
    have hkeys : (files.map fun r => if key r == key c then g r else r).map key
        = files.map key := by
      rw [List.map_map]
      apply List.map_congr_left
      intro a _
      by_cases h : key a = key c <;> simp [h, hg]
    rw [ih _ (hkeys ▸ hndF) hndC.2, List.map_map]
    apply List.map_congr_left
    intro r _
    by_cases h1 : key r = key c
    · have hb1 : (key r == key c) = true := by simp [h1]
      have hnone : (cs.any fun c2 => key (g r) == key c2) = false := by
        rw [Bool.eq_false_iff]
        intro hany
        rcases List.any_eq_true.mp hany with ⟨c2, hc2, hbc2⟩
        have : key c = key c2 := by
          have := beq_iff_eq.mp hbc2
          rw [hg] at this
          exact h1 ▸ this
        exact hndC.1 (this ▸ List.mem_map_of_mem key hc2)
      simp only [Function.comp_apply, hb1, if_true, List.any_cons, hb1,
        Bool.true_or, hnone, Bool.false_eq_true, if_false]
    · have hb1 : (key r == key c) = false := by simp [h1]
      simp only [Function.comp_apply, hb1, Bool.false_eq_true, if_false,
        List.any_cons, hb1, Bool.false_or]

/-- In a store with pairwise-distinct paths, a record's path occurs among
the checked records' paths exactly when the record itself is checked. -/
lemma filter_checked_any_eq (files : List FileRecord)
    (hnd : (files.map fun r => r.path).Nodup) :
    ∀ r ∈ files,
      ((files.filter fun f => f.checked).any fun c => r.path == c.path)
        = r.checked := by
  intro r hr
  by_cases hc : r.checked = true
  · rw [hc]
    exact List.any_eq_true.mpr ⟨r, List.mem_filter.mpr ⟨hr, hc⟩, by simp⟩
  · have hcf : r.checked = false := by revert hc; cases r.checked <;> simp
    rw [hcf, Bool.eq_false_iff]
    intro hany
    rcases List.any_eq_true.mp hany with ⟨c, hcmem, hbc⟩
    have hcfiles : c ∈ files := List.mem_of_mem_filter hcmem
    have hchecked : c.checked = true := (List.mem_filter.mp hcmem).2
    have hpath : r.path = c.path := beq_iff_eq.mp hbc
    have hcr : c = r := List.inj_on_of_nodup_map hnd hcfiles hr hpath.symm
    rw [hcr] at hchecked
    exact hc hchecked

/-- The checked sub-list of a store with pairwise-distinct paths also has
pairwise-distinct paths. -/
lemma filter_checked_paths_nodup (files : List FileRecord)
    (hnd : (files.map fun r => r.path).Nodup) :
    (((files.filter fun f => f.checked).map fun r => r.path).Nodup) :=
  List.Nodup.sublist
    (List.Sublist.map (fun r => r.path) (List.filter_sublist files)) hnd

/-- The common shape of the three result appliers: folding the find-by-path
update over the checked set of a duplicate-free store updates exactly the
checked records. -/
lemma apply_checked_eq_map {g : FileRecord → FileRecord}
    (hg : ∀ r, (g r).path = r.path)
    (files : List FileRecord) (hnd : (files.map fun r => r.path).Nodup) :
    (files.filter fun f => f.checked).foldl
        (fun fs c => updateFirst (fun pf => pf.path == c.path) g fs) files
      = files.map fun r => if r.checked then g r else r := by
  have h1 : (files.filter fun f => f.checked).foldl
        (fun fs c => updateFirst (fun pf => pf.path == c.path) g fs) files
      = files.map (fun r =>
          if (files.filter fun f => f.checked).any (fun c => r.path == c.path)
          then g r else r) :=
    foldl_updateFirst_eq_map (fun r => r.path) hg _ files hnd
      (filter_checked_paths_nodup files hnd)
  rw [h1]
  apply List.map_congr_left
  intro r hr
  rw [filter_checked_any_eq files hnd r hr]

/-- `individualUpd` never changes the record's path. -/
lemma individualUpd_path (m : List (String × String)) (ts : String)
    (r : FileRecord) : (individualUpd m ts r).path = r.path := by
  cases h : jsLookup m r.name with
  | none => simp [individualUpd, h]
  | some c => by_cases hc : c = "" <;> simp [individualUpd, h, hc]

/-- `applyCompareResult` over the checked set of a duplicate-free store is
a pointwise conditional update. -/
lemma applyCompareResult_eq_map (files : List FileRecord) (res ts : String)
    (hnd : (files.map fun r => r.path).Nodup) :
    applyCompareResult (files.filter fun f => f.checked) res ts files
      = files.map fun r => if r.checked then compareUpd res ts r else r :=
  @apply_checked_eq_map (compareUpd res ts) (fun _ => rfl) files hnd

/-- `applyErrorResult` over the checked set of a duplicate-free store is a
pointwise conditional update. -/
lemma applyErrorResult_eq_map (files : List FileRecord) (err : String)
    (hnd : (files.map fun r => r.path).Nodup) :
    applyErrorResult (files.filter fun f => f.checked) err files
      = files.map fun r => if r.checked then errorUpd err r else r :=
  @apply_checked_eq_map (errorUpd err) (fun _ => rfl) files hnd

/-- `applyIndividualResults` over the checked set of a duplicate-free store
is a pointwise conditional update through the parsed mapping. -/
lemma applyIndividualResults_eq_map (files : List FileRecord) (res ts : String)
    (hnd : (files.map fun r => r.path).Nodup) :
    applyIndividualResults (files.filter fun f => f.checked) res ts files
      = files.map fun r =>
          if r.checked then individualUpd (parseIndividualResults res) ts r
          else r :=
  apply_checked_eq_map (individualUpd_path _ ts) files hnd

/-! ## Concrete records used by witnesses -/

/-- A checked tracked file with no prior result. -/
def recA : FileRecord :=
  ⟨"a.pdf", "C:/docs/a.pdf", true, none, false, none, none, false, false, false⟩

/-- An unchecked tracked file with a prior result. -/
def recB : FileRecord :=
  ⟨"b.pdf", "C:/docs/b.pdf", false, some "prev", false, some "2025-01-01",
   none, false, false, false⟩

/-- A checked tracked file with a prior result and timestamp. -/
def recC : FileRecord :=
  ⟨"c.pdf", "C:/docs/c.pdf", true, some "prev", false, some "2025-02-02",
   none, true, false, false⟩

/-- An unchecked tracked file with no prior result. -/
def recD : FileRecord :=
  ⟨"d.pdf", "C:/docs/d.pdf", false, none, false, none, none, false, false, false⟩

/-- A small store with one checked and one unchecked file. -/
def wStore : List FileRecord := [recA, recB]

/-! ## Claim theorems -/

/-- C1: for every backend response string and every non-empty checked set
of a duplicate-free store, a compare-mode run gives every checked file the
identical shared `result`, `resultError = false`, `compareMode = true` and
the same `analyzedAt` timestamp. -/
theorem compare_run_shares_result
    (files : List FileRecord) (res ts : String)
    (hnd : (files.map fun r => r.path).Nodup)
    (_hne : files.filter (fun f => f.checked) ≠ [])
    (i : Nat) (r : FileRecord)
    (hi : files[i]? = some r) (hc : r.checked = true) :
    ∃ r2, (applyCompareResult (files.filter fun f => f.checked) res ts files)[i]?
        = some r2 ∧ r2.result = some res ∧ r2.resultError = false ∧
        r2.compareMode = true ∧ r2.analyzedAt = some ts := by
  refine ⟨compareUpd res ts r, ?_, rfl, rfl, rfl, rfl⟩
  rw [applyCompareResult_eq_map files res ts hnd, List.getElem?_map, hi]
  simp [hc]

/-- Witness for C1 at a concrete two-file store. -/
theorem compare_run_shares_result_witness :
    ∃ r2, (applyCompareResult (wStore.filter fun f => f.checked) "ALL"
        "2026-01-01" wStore)[0]? = some r2 ∧ r2.result = some "ALL" ∧
        r2.resultError = false ∧ r2.compareMode = true ∧
        r2.analyzedAt = some "2026-01-01" :=
  compare_run_shares_result wStore "ALL" "2026-01-01" (by decide) (by decide)
    0 recA (by decide) (by decide)

/-- C2: the UI-State Deriver returns exactly the enablement decisions of
the spec's table for every combination of the five input flags. -/
theorem ui_state_matches_table :
    ∀ hf hc hrs b hci : Bool,
      updateButtonsState ⟨hf, hc, hrs, b, hci⟩
        = ⟨b || !hc, b || !hc || hrs, b || !hf, !hf, !hf, b || !hrs,
           b || !hc, b || !hrs || !hci⟩ := by decide

/-- C3: on failure, every checked file of a duplicate-free store receives
the error text with `resultError = true`, and its `analyzedAt` is left
unmodified. -/
theorem error_run_marks_checked
    (files : List FileRecord) (err : String)
    (hnd : (files.map fun r => r.path).Nodup)
    (i : Nat) (r : FileRecord)
    (hi : files[i]? = some r) (hc : r.checked = true) :
    ∃ r2, (applyErrorResult (files.filter fun f => f.checked) err files)[i]?
        = some r2 ∧ r2.result = some err ∧ r2.resultError = true ∧
        r2.analyzedAt = r.analyzedAt := by
  refine ⟨errorUpd err r, ?_, rfl, rfl, rfl⟩
  rw [applyErrorResult_eq_map files err hnd, List.getElem?_map, hi]
  simp [hc]

/-- Witness for C3: a rejected backend call marks the checked file errored
and keeps its old timestamp. -/
theorem error_run_marks_checked_witness :
    ∃ r2, (applyErrorResult ([recC, recB].filter fun f => f.checked)
        "timeout" [recC, recB])[0]? = some r2 ∧ r2.result = some "timeout" ∧
        r2.resultError = true ∧ r2.analyzedAt = recC.analyzedAt :=
  error_run_marks_checked [recC, recB] "timeout" (by decide) 0 recC
    (by decide) (by decide)

/-- C5: the Result Parser on the single wire-format block
`"## 📄 a.pdf\n---\nOK\n"` (marker at the start of the string) yields
exactly the one binding `"a.pdf" ↦ "OK"`. -/
theorem parser_single_block_scenario :
    parseIndividualResults "## 📄 a.pdf\n---\nOK\n" = [("a.pdf", "OK")] := by
  decide

/-- C7: in an individual-mode run over a duplicate-free store, a checked
file whose display name has no section in the parsed mapping keeps its
entire prior record state unchanged. -/
theorem individual_missing_section_keeps_record
    (files : List FileRecord) (res ts : String)
    (hnd : (files.map fun r => r.path).Nodup)
    (i : Nat) (r : FileRecord)
    (hi : files[i]? = some r) (hc : r.checked = true)
    (hmiss : jsLookup (parseIndividualResults res) r.name = none) :
    (applyIndividualResults (files.filter fun f => f.checked) res ts files)[i]?
      = some r := by
  rw [applyIndividualResults_eq_map files res ts hnd, List.getElem?_map, hi]
  simp [hc, individualUpd, hmiss]

/-- Witness for C7: a response carrying only a section for `b.pdf` leaves
the checked record `a.pdf` untouched. -/
theorem individual_missing_section_keeps_record_witness :
    (applyIndividualResults (wStore.filter fun f => f.checked)
        "## 📄 b.pdf\n---\nNB\n" "T" wStore)[0]? = some recA :=
  individual_missing_section_keeps_record wStore "## 📄 b.pdf\n---\nNB\n" "T"
    (by decide) 0 recA (by decide) (by decide) (by decide)

/-- C10: in an individual-mode run over a duplicate-free store, a checked
file whose section is present in the mapping with empty extracted content
is treated exactly like a missing section: the record is unchanged, because
the applier tests the content's truthiness before writing. -/
theorem individual_empty_content_keeps_record
    (files : List FileRecord) (res ts : String)
    (hnd : (files.map fun r => r.path).Nodup)
    (i : Nat) (r : FileRecord)
    (hi : files[i]? = some r) (hc : r.checked = true)
    (hempty : jsLookup (parseIndividualResults res) r.name = some "") :
    (applyIndividualResults (files.filter fun f => f.checked) res ts files)[i]?
      = some r := by
  rw [applyIndividualResults_eq_map files res ts hnd, List.getElem?_map, hi]
  simp [hc, individualUpd, hempty]

/-- Witness for C10: a section for `a.pdf` whose content trims to the
empty string leaves the checked record `a.pdf` untouched. -/
theorem individual_empty_content_keeps_record_witness :
    jsLookup (parseIndividualResults "## 📄 a.pdf\n---\n\n") "a.pdf"
        = some "" ∧
      (applyIndividualResults (wStore.filter fun f => f.checked)
        "## 📄 a.pdf\n---\n\n" "T" wStore)[0]? = some recA :=
  ⟨by decide,
   individual_empty_content_keeps_record wStore "## 📄 a.pdf\n---\n\n" "T"
     (by decide) 0 recA (by decide) (by decide) (by decide)⟩

/-- C6: when the parsed mapping's keys are exactly `{A, B}` and only `A`
names a tracked file of a duplicate-free store, an individual-mode run
updates `A`'s record from the mapping, leaves every record not named `A`
unchanged, and raises no error for the unmatched section `B`. -/
theorem untracked_section_silently_discarded
    (files : List FileRecord) (res ts A B ca cb : String)
    (hnd : (files.map fun r => r.path).Nodup)
    (hKeys : (parseIndividualResults res).map Prod.fst = [A, B])
    (hA : jsLookup (parseIndividualResults res) A = some ca) (hca : ca ≠ "")
    (_hB : jsLookup (parseIndividualResults res) B = some cb)
    (hBfree : ∀ r ∈ files, r.name ≠ B)
    (i : Nat) (r : FileRecord) (hi : files[i]? = some r)
    (hname : r.name = A) (hc : r.checked = true) :
    (∃ r2, (applyIndividualResults (files.filter fun f => f.checked) res ts
          files)[i]? = some r2 ∧ r2.result = some ca ∧
        r2.resultError = false ∧ r2.analyzedAt = some ts ∧
        r2.embedded = true) ∧
    ∀ (j : Nat) (s : FileRecord), files[j]? = some s → s.name ≠ A →
      (applyIndividualResults (files.filter fun f => f.checked) res ts
        files)[j]? = some s := by
  constructor
  · refine ⟨individualUpd (parseIndividualResults res) ts r, ?_, ?_, ?_, ?_, ?_⟩
    · rw [applyIndividualResults_eq_map files res ts hnd, List.getElem?_map, hi]
      simp [hc]
    all_goals simp [individualUpd, hname, hA, hca]
  · intro j s hj hsname
    rw [applyIndividualResults_eq_map files res ts hnd, List.getElem?_map, hj]
    by_cases hsc : s.checked = true
    · have hnone : jsLookup (parseIndividualResults res) s.name = none := by
        cases hl : jsLookup (parseIndividualResults res) s.name with
        | none => rfl
        | some c =>
          have hk : s.name ∈ (parseIndividualResults res).map Prod.fst :=
            jsLookup_mem_keys hl
          rw [hKeys] at hk
          rcases List.mem_cons.mp hk with h1 | h2
          · exact absurd h1 hsname
          · have hsB : s.name = B := by simpa using h2
            exact absurd hsB (hBfree s (List.getElem?_mem hj))
      simp [hsc, individualUpd, hnone]
    · have hscf : s.checked = false := by revert hsc; cases s.checked <;> simp
      simp [hscf]

/-- The store and response used by the C6 witness. -/
def wStore6 : List FileRecord := [recA, recD]

/-- A two-section response whose second section names no tracked file. -/
def wRes6 : String := "## 📄 a.pdf\n---\nOK\n\n## 📄 b.pdf\n---\nNB\n"

/-- Witness for C6: the mapping holds both `a.pdf` and `b.pdf`, the
tracked `a.pdf` record is updated and the record not named `a.pdf` stays
unchanged. -/
theorem untracked_section_silently_discarded_witness :
    (parseIndividualResults wRes6).map Prod.fst = ["a.pdf", "b.pdf"] ∧
    (∃ r2, (applyIndividualResults (wStore6.filter fun f => f.checked) wRes6
          "T" wStore6)[0]? = some r2 ∧ r2.result = some "OK" ∧
        r2.resultError = false ∧ r2.analyzedAt = some "T" ∧
        r2.embedded = true) ∧
    (applyIndividualResults (wStore6.filter fun f => f.checked) wRes6 "T"
      wStore6)[1]? = some recD :=
  ⟨by decide,
   (untracked_section_silently_discarded wStore6 wRes6 "T" "a.pdf" "b.pdf"
      "OK" "NB" (by decide) (by decide) (by decide) (by decide) (by decide)
      (by decide) 0 recA (by decide) (by decide) (by decide)).1,
   (untracked_section_silently_discarded wStore6 wRes6 "T" "a.pdf" "b.pdf"
      "OK" "NB" (by decide) (by decide) (by decide) (by decide) (by decide)
      (by decide) 0 recA (by decide) (by decide) (by decide)).2 1 recD
     (by decide) (by decide)⟩

/-- `addRecord` preserves pairwise-distinct paths. -/
lemma addRecord_paths_nodup (files : List FileRecord) (r : FileRecord)
    (h : (files.map fun f => f.path).Nodup) :
    (((addRecord files r).map fun f => f.path).Nodup) := by
  unfold addRecord
  split
  · exact h
  · rename_i hfind
    have hnone : files.find? (fun f => f.path == r.path) = none := by
      cases hf : files.find? (fun f => f.path == r.path) with
      | none => rfl
      | some p => rw [hf] at hfind; simp at hfind
    rw [List.map_append, List.nodup_append]
    refine ⟨h, List.nodup_singleton _, ?_⟩
    intro a ha hb
    have haeq : a = r.path := by simpa using hb
    rcases List.mem_map.mp ha with ⟨f, hfmem, hfa⟩
    apply List.find?_eq_none.mp hnone f hfmem
    rw [hfa, haeq]
    simp

/-- Inserting a record whose path is already present is a no-op. -/
lemma addRecord_noop (files : List FileRecord) (r : FileRecord)
    (h : (files.find? fun f => f.path == r.path).isSome = true) :
    addRecord files r = files := by
  unfold addRecord
  rw [if_pos h]

/-- Any sequence of guarded insertions preserves pairwise-distinct
paths. -/
lemma foldl_addRecord_paths_nodup :
    ∀ (inserts files0 : List FileRecord),
      ((files0.map fun f => f.path).Nodup) →
      (((inserts.foldl addRecord files0).map fun f => f.path).Nodup) := by
  intro inserts
  induction inserts with
  | nil => intro files0 h; exact h
  | cons r rs ih =>
    intro files0 h
    exact ih _ (addRecord_paths_nodup files0 r h)

/-- C8: starting from a duplicate-free store, every sequence of record
insertions (file-open dialog, drag-drop, detection notification, history
load all funnel through the same guarded insertion) keeps the store free
of duplicate paths, and inserting a record whose path is already present
is a no-op. -/
theorem store_paths_unique
    (inserts files0 : List FileRecord) (r : FileRecord)
    (hnd : (files0.map fun f => f.path).Nodup) :
    (((inserts.foldl addRecord files0).map fun f => f.path).Nodup) ∧
    (((inserts.foldl addRecord files0).find? fun f =>
        f.path == r.path).isSome = true →
      addRecord (inserts.foldl addRecord files0) r
        = inserts.foldl addRecord files0) := by
  refine ⟨foldl_addRecord_paths_nodup inserts files0 hnd, ?_⟩
  intro hfound
  exact addRecord_noop _ r hfound

/-- Witness for C8: inserting `a.pdf` twice leaves a duplicate-free store,
and a further insertion of the present path is a no-op. -/
theorem store_paths_unique_witness :
    ((([recA, recB, recA].foldl addRecord []).map fun f => f.path).Nodup) ∧
    addRecord ([recA, recB, recA].foldl addRecord []) recA
      = [recA, recB, recA].foldl addRecord [] :=
  ⟨(store_paths_unique [recA, recB, recA] [] recA (by decide)).1,
   (store_paths_unique [recA, recB, recA] [] recA (by decide)).2 (by decide)⟩

/-- C9 counterexample: at an input whose first marker is at the start of
the string (not preceded by a newline), the exported parser and the older
inline parser disagree — the older one keys the section by the whole
marker line. -/
theorem parsers_differ_at_leading_marker :
    parseIndividualResults "## 📄 a.pdf\n---\nOK\n" ≠
      parseIndividualResultsMain "## 📄 a.pdf\n---\nOK\n" := by decide

/-- C9 (amended): the two parsers compute the same mapping on every input
string that does not begin with the marker `"## 📄 "`. -/
theorem parsers_agree_without_leading_marker (s : String)
    (h : jsStartsWith sectionMarker s = false) :
    parseIndividualResults s = parseIndividualResultsMain s := by
  simp [parseIndividualResults, parseIndividualResultsMain, h]

/-- Witness for the amended C9 at an input whose marker is preceded by a
newline. -/
theorem parsers_agree_without_leading_marker_witness :
    jsStartsWith sectionMarker "\n## 📄 a.pdf\n---\nOK\n" = false ∧
      parseIndividualResults "\n## 📄 a.pdf\n---\nOK\n"
        = parseIndividualResultsMain "\n## 📄 a.pdf\n---\nOK\n" :=
  ⟨by decide, parsers_agree_without_leading_marker _ (by decide)⟩

/-- An update that does not touch `analyzing` leaves the `analyzing`
column of the store unchanged through `updateFirst`. -/
lemma updateFirst_map_analyzing {g : FileRecord → FileRecord}
    {p : FileRecord → Bool} (hg : ∀ r, (g r).analyzing = r.analyzing) :
    ∀ l : List FileRecord,
      (updateFirst p g l).map (fun r => r.analyzing)
        = l.map fun r => r.analyzing := by
  intro l
  induction l with
  | nil => rfl
  | cons r rs ih =>
    simp only [updateFirst]
    by_cases h : p r = true
    · simp [h, hg]
    · have hf : p r = false := by revert h; cases p r <;> simp
      simp [hf, ih]

/-- The result-applier fold never touches the `analyzing` column. -/
lemma foldl_updateFirst_map_analyzing {g : FileRecord → FileRecord}
    (hg : ∀ r, (g r).analyzing = r.analyzing) :
    ∀ (checked files : List FileRecord),
      ((checked.foldl
          (fun fs c => updateFirst (fun pf => pf.path == c.path) g fs)
          files).map (fun r => r.analyzing))
        = files.map fun r => r.analyzing := by
  intro checked
  induction checked with
  | nil => intro files; rfl
  | cons c cs ih =>
    intro files
    simp only [List.foldl_cons]
    rw [ih, updateFirst_map_analyzing hg]

/-- `individualUpd` never changes `analyzing`. -/
lemma individualUpd_analyzing (m : List (String × String)) (ts : String)
    (r : FileRecord) : (individualUpd m ts r).analyzing = r.analyzing := by
  cases h : jsLookup m r.name with
  | none => simp [individualUpd, h]
  | some c => by_cases hc : c = "" <;> simp [individualUpd, h, hc]

/-- The end-of-run result application (success in either mode, or failure)
leaves the `analyzing` column exactly as the progress events left it: the
run's completion never clears the flag by itself. -/
lemma runAnalyze_map_analyzing (files : List FileRecord)
    (events : List ProgressEvent) (outcome : Except String String)
    (mode ts : String) :
    (runAnalyze files events outcome mode ts).map (fun r => r.analyzing)
      = (events.foldl applyProgress files).map fun r => r.analyzing := by
  unfold runAnalyze
  cases outcome with
  | error e =>
    exact @foldl_updateFirst_map_analyzing (errorUpd e) (fun _ => rfl) _ _
  | ok res =>
    dsimp only
    by_cases hm : mode = "compare"
    · rw [if_pos hm]
      exact @foldl_updateFirst_map_analyzing (compareUpd res ts)
        (fun _ => rfl) _ _
    · rw [if_neg hm]
      exact @foldl_updateFirst_map_analyzing
        (individualUpd (parseIndividualResults res) ts)
        (individualUpd_analyzing _ ts) _ _

/-- Core C4 invariant argument: starting from a store with pairwise
distinct names in which every `analyzing = true` record still has a
pending progress event for its name, if the last progress event for every
file name reports `completed`, then after folding all progress events no
record is left `analyzing`. -/
lemma progress_fold_all_false :
    ∀ (events : List ProgressEvent) (files : List FileRecord),
      ((files.map fun r => r.name).Nodup) →
      (∀ n e2, ((events.filter fun ev => ev.file_name == n).getLast?
          = some e2) → e2.completed = true) →
      (∀ r ∈ files, r.analyzing = true →
        (events.filter fun ev => ev.file_name == r.name) ≠ []) →
      ∀ r ∈ events.foldl applyProgress files, r.analyzing = false := by
  intro events
  induction events with
  | nil =>
    intro files _ _ hinv r hr
    simp only [List.foldl_nil] at hr
    by_cases h : r.analyzing = true
    · exact absurd rfl (hinv r hr h)
    · revert h; cases r.analyzing <;> simp
  | cons e es ih =>
    intro files hnames hlast hinv r hr
    simp only [List.foldl_cons] at hr
    have hmap : applyProgress files e
        = files.map fun f =>
            if f.name == e.file_name then { f with analyzing := !e.completed }
            else f :=
      updateFirst_eq_map (fun r => r.name) files hnames e.file_name
    have hnames2 : ((applyProgress files e).map fun r => r.name).Nodup := by
      rw [hmap, List.map_map]
      have hcomp : files.map ((fun r => r.name) ∘ fun f =>
          if f.name == e.file_name then { f with analyzing := !e.completed }
          else f) = files.map fun r => r.name := by
        apply List.map_congr_left
        intro a _
        by_cases h : a.name = e.file_name <;> simp [Function.comp_apply, h]
      rw [hcomp]
      exact hnames
    have hlast2 : ∀ n e2, ((es.filter fun ev => ev.file_name == n).getLast?
        = some e2) → e2.completed = true := by
      intro n e2 h2
      apply hlast n e2
      by_cases hm : (e.file_name == n) = true
      · rw [List.filter_cons, if_pos hm]
        have hne : (es.filter fun ev => ev.file_name == n) ≠ [] := by
          intro hnil; rw [hnil] at h2; cases h2
        rw [getLast?_cons_of_ne_nil hne]
        exact h2
      · rw [List.filter_cons, if_neg hm]
        exact h2
    have hinv2 : ∀ r2 ∈ applyProgress files e, r2.analyzing = true →
        (es.filter fun ev => ev.file_name == r2.name) ≠ [] := by
      intro r2 hr2 hra
      rw [hmap] at hr2
      rcases List.mem_map.mp hr2 with ⟨r0, hr0, heq⟩
      by_cases hm : (r0.name == e.file_name) = true
      · rw [if_pos hm] at heq
        have hname2 : r2.name = e.file_name := by
          rw [← heq]
          exact beq_iff_eq.mp hm
        have hcompleted : e.completed = false := by
          rw [← heq] at hra
          simpa using hra
        intro hnil
        have hfull : ((e :: es).filter fun ev =>
            ev.file_name == r2.name).getLast? = some e := by
          rw [List.filter_cons, if_pos (by rw [hname2]; simp), hnil]
          simp
        have := hlast r2.name e hfull
        rw [hcompleted] at this
        cases this
      · rw [if_neg hm] at heq
        have hbf : (r0.name == e.file_name) = false := by
          revert hm; cases r0.name == e.file_name <;> simp
        have hne0 : r0.name ≠ e.file_name := by
          intro habs
          rw [habs] at hbf
          simp at hbf
        rw [← heq]
        rw [← heq] at hra
        have hstep := hinv r0 hr0 hra
        rw [List.filter_cons, if_neg ?hc] at hstep
        case hc =>
          intro habs
          exact hne0 (beq_iff_eq.mp habs).symm
        exact hstep
    exact ih (applyProgress files e) hnames2 hlast2 hinv2 r hr

/-- A start notification (`completed = false`) for `a.pdf`. -/
def startEv : ProgressEvent := ⟨"a.pdf", false, true⟩

/-- A completion notification (`completed = true`) for `a.pdf`. -/
def doneEv : ProgressEvent := ⟨"a.pdf", true, true⟩

/-- C4 counterexample: a run that receives a start notification for a
checked file and then fails as a whole leaves that file's `analyzing` flag
`true` after the run — the failure path and the `finally` block never
clear the flag. -/
theorem analyzing_persists_after_failed_run :
    ∃ r ∈ runAnalyze [recA] [startEv] (Except.error "timeout") "individual"
      "2026-01-01", r.analyzing = true := by decide

/-- C4 (amended): after a run, `analyzing` is false on every tracked
record provided the store starts with all flags false, display names are
pairwise distinct, and for every file name the last progress notification
received during the run reported `completed` — the end-of-run processing
itself never modifies the flag, so a start notification without a later
completion notification leaves it set. -/
theorem analyzing_false_after_fully_notified_run
    (files : List FileRecord) (events : List ProgressEvent)
    (outcome : Except String String) (mode ts : String)
    (hnames : (files.map fun r => r.name).Nodup)
    (hinit : ∀ r ∈ files, r.analyzing = false)
    (hlast : ∀ n e2, ((events.filter fun ev => ev.file_name == n).getLast?
        = some e2) → e2.completed = true) :
    ∀ r ∈ runAnalyze files events outcome mode ts, r.analyzing = false := by
  intro r hr
  have hmapeq := runAnalyze_map_analyzing files events outcome mode ts
  have hrmem : r.analyzing ∈ (runAnalyze files events outcome mode
      ts).map fun r => r.analyzing :=
    List.mem_map_of_mem _ hr
  rw [hmapeq] at hrmem
  rcases List.mem_map.mp hrmem with ⟨r1, hr1, heq⟩
  have h1 : r1.analyzing = false := by
    refine progress_fold_all_false events files hnames hlast ?_ r1 hr1
    intro r2 hr2 h2
    rw [hinit r2 hr2] at h2
    cases h2
  rw [← heq, h1]

/-- Witness for the amended C4: a start followed by a completion for
`a.pdf`, then a failing backend call, ends with no record analyzing. -/
theorem analyzing_false_after_fully_notified_run_witness :
    ((runAnalyze wStore [startEv, doneEv] (Except.error "timeout")
        "individual" "2026-01-01").all fun r => !r.analyzing) = true := by
  have h := analyzing_false_after_fully_notified_run wStore [startEv, doneEv]
    (Except.error "timeout") "individual" "2026-01-01" (by decide) (by decide)
    (by
      intro n e2 h2
      by_cases hn : "a.pdf" = n
      · rw [List.filter_cons, if_pos (by simp [startEv, hn]),
          List.filter_cons, if_pos (by simp [doneEv, hn]),
          List.filter_nil] at h2
        rw [List.getLast?_cons_cons] at h2
        have he : doneEv = e2 := by simpa using h2
        rw [← he]
        rfl
      · rw [List.filter_cons, if_neg (by simp [startEv, hn]),
          List.filter_cons, if_neg (by simp [doneEv, hn]),
          List.filter_nil] at h2
        cases h2)
  apply List.all_eq_true.mpr
  intro r hr
  simp [h r hr]
